import Mathlib

/-!
Verification of the compaction engine of `gokvstore` (`compaction.go`).

The development embeds the compaction subsystem shallowly:

* the k-way merging iterator with last-writer-wins deduplication
  (`NewMergingIterator` / `chunkIterator` are collaborators whose source is
  not part of `compaction.go`; they are modelled from the design document);
* the bucketing planner `makeBuckets` (fuel-indexed, because the Go
  recursion does not terminate on lists shorter than `minBucketSize`);
* `compactBucket`, the producer loop of `compactBuckets`, the deletion pass
  `deleteProcessedFiles`, the gate `shouldCompact`, and the constructor
  `NewCompactor`, with external collaborators (file system, segment writer,
  filter sink) represented by explicit oracles recording success or failure
  and by an effect trace.
-/

namespace GoKV

/-! ### Records and segments

A record is a (key, value) pair; keys and values are bytes strings in the
store, modelled here as naturals with the lexicographic order abstracted to
the order on `Nat`.  A segment is the decoded record sequence of one SSTable
file, which the write path guarantees to be strictly sorted by key. -/

abbrev Rec := Nat × Nat

abbrev Segment := List Rec

/-- Keys of a segment, in file order. -/
def segKeys (s : Segment) : List Nat := s.map Prod.fst

/-- A segment is sorted when its keys are strictly increasing. -/
def segSorted (s : Segment) : Prop := List.Sorted (· < ·) (segKeys s)

instance (s : Segment) : Decidable (segSorted s) := by
  unfold segSorted List.Sorted; infer_instance

/-- All keys occurring in any segment of the list. -/
def allKeys (ss : List Segment) : List Nat := (ss.map segKeys).flatten

/-! ### Merging iterator

Modelled from the spec: `NewMergingIterator` and the `chunkIterator`s it
consumes are collaborators of `compaction.go` whose own source is not in
`src/`.  Following §4.3 of the design: the iterators are held in recency
order (oldest first, most recent last); at each step the smallest current
head key is selected, the record of the most recent source currently
exposing that key is emitted, and every source exposing that key is advanced
past it. -/

/-- Current head records of the live sources (exhausted sources drop out). -/
def headRecs (ss : List Segment) : List Rec := ss.filterMap List.head?

/-- Minimum of a list of keys, `none` when empty. -/
def minKey : List Nat → Option Nat
  | [] => none
  | k :: ks =>
    match minKey ks with
    | none => some k
    | some m => some (min k m)

/-- The key the merge will emit next: the smallest current head key. -/
def minHeadKey (ss : List Segment) : Option Nat :=
  minKey ((headRecs ss).map Prod.fst)

/-- The head value of a source, provided its head key is `m`. -/
def headValAt (m : Nat) (s : Segment) : Option Nat :=
  match s with
  | [] => none
  | r :: _ => if r.1 = m then some r.2 else none

/-- Value retained for key `m`: the head value of the most recent (last in
recency order) source currently exposing `m`. -/
def pickVal (ss : List Segment) (m : Nat) : Option Nat :=
  ss.reverse.findSome? (headValAt m)

/-- Advance one source past key `m` when its head carries `m`. -/
def advanceOne (m : Nat) (s : Segment) : Segment :=
  match s with
  | [] => []
  | r :: t => if r.1 = m then t else r :: t

/-- Advance every source currently exposing key `m`. -/
def advance (ss : List Segment) (m : Nat) : List Segment :=
  ss.map (advanceOne m)

/-- Total number of records still held by the sources. -/
def totalLen (ss : List Segment) : Nat := (ss.map List.length).sum

/-- Fuel-indexed k-way merge loop; `totalLen ss` fuel always suffices. -/
def mergeAux : Nat → List Segment → List Rec
  | 0, _ => []
  | fuel + 1, ss =>
    match minHeadKey ss with
    | none => []
    | some m => (m, (pickVal ss m).getD 0) :: mergeAux fuel (advance ss m)

/-- Output of the merging iterator over sources `ss` (oldest first). -/
def mergeSegs (ss : List Segment) : List Rec := mergeAux (totalLen ss) ss

/-- Keys of the merged output, in emission order. -/
def outKeys (out : List Rec) : List Nat := out.map Prod.fst

/-- Lookup of a key inside one segment (first record carrying the key). -/
def lookupSeg (s : Segment) (k : Nat) : Option Nat :=
  (s.find? (fun r => decide (r.1 = k))).map Prod.snd

/-- Specification-side conflict resolution: the value of `k` in the most
recent source segment that contains `k` at all. -/
def lwwVal (ss : List Segment) (k : Nat) : Option Nat :=
  ss.reverse.findSome? (fun s => lookupSeg s k)

/-! ### `compaction.go`: data model

Direct embedding of the declarations of `compaction.go`.  Go's nil-able
`[]string` slice held in `Compactor.files` is modelled as an
`Option (List String)` (`none` = nil slice, of length 0). -/

def minBucketSize : Nat := 2

def maxBucketSize : Nat := 8

structure Options where
  ReadOnly : Bool
  UseCompression : Bool
  SyncWrite : Bool
  deriving DecidableEq, Repr

structure FileSystem where
  path : String
  options : Options
  deriving DecidableEq, Repr

/-- Modelled from the spec: `NewFS` (not under `src/`) builds the file-system
handle for a store path, keeping the configuration bundle. -/
def NewFS (path : String) (opts : Options) : FileSystem := ⟨path, opts⟩

structure bucket where
  files : List String
  processed : Bool
  deriving DecidableEq, Repr

structure compactionStats where
  numFilesBeforeCompaction : Nat
  numFilesAfterCompaction : Nat
  numKeysBeforeCompaction : Nat
  numKeysAfterCompaction : Nat
  /-- Set exactly when the Go `err` field is non-nil. -/
  err : Bool
  deriving DecidableEq, Repr

structure Compactor where
  fs : FileSystem
  files : Option (List String)
  buckets : List bucket
  deriving DecidableEq, Repr

/-- Number of candidate files (a Go nil slice has length 0). -/
def candidateCount (c : Compactor) : Nat := (c.files.getD []).length

/-- The gate `shouldCompact`: `c.files != nil && len(c.files) > minBucketSize`. -/
def shouldCompact (c : Compactor) : Bool :=
  match c.files with
  | none => false
  | some fs => decide (minBucketSize < fs.length)

/-- The planner `makeBuckets`, fuel-indexed: the Go function recurses on the two halves
of the list whenever the length falls outside
`[minBucketSize, maxBucketSize]`, with no further base case, so on lists
shorter than `minBucketSize` the recursion never terminates.  `none` means
the recursion has not reached a result within `fuel` nested calls. -/
def makeBuckets : Nat → List String → Option (List bucket)
  | 0, _ => none
  | fuel + 1, files =>
    if minBucketSize ≤ files.length ∧ files.length ≤ maxBucketSize then
      some [⟨files, false⟩]
    else
      match makeBuckets fuel (files.take (files.length / 2)),
            makeBuckets fuel (files.drop (files.length / 2)) with
      | some l, some r => some (l ++ r)
      | _, _ => none

/-! ### `compactBucket` with collaborator oracles

The external collaborators invoked by `compactBucket` — `ioutil.ReadFile`,
`FileSystem.NewSSTable`, the filter's `WriteTo` and the writer's `Close` —
are represented by an oracle structure fixing, for one bucket, which calls
succeed, what record sequence each segment file decodes to, and the
creation timestamp each file name encodes (used by the `ByTime` sort). -/

structure BEnv where
  readOk : String → Bool
  segOf : String → Segment
  recKey : String → Nat
  newSSTOk : Bool
  filterOk : Bool
  closeOk : Bool

/-- Side effects performed against the file system and the writer. -/
inductive Eff : Type where
  | readFile (name : String)
  | createSegment
  | newWriter (useCompression : Bool)
  | writeRec (key value : Nat)
  | persistFilter
  | closeWriter
  | deleteFile (name : String)
  deriving DecidableEq, Repr

/-- Modelled from the spec: the `ByTime` ordering policy (not under `src/`)
sorts segment file names by their embedded creation timestamp. -/
def sortByTime (recKey : String → Nat) (fs : List String) : List String :=
  List.insertionSort (fun a b => recKey a ≤ recKey b) fs

/-- The read loop of `compactBucket`: reads each file in order, aborting at
the first failing read, and records the reads actually performed. -/
def readAll (env : BEnv) : List String → Option (List Segment) × List Eff
  | [] => (some [], [])
  | f :: fs =>
    if env.readOk f then
      match readAll env fs with
      | (none, effs) => (none, Eff.readFile f :: effs)
      | (some segs, effs) => (some (env.segOf f :: segs), Eff.readFile f :: effs)
    else (none, [Eff.readFile f])

/-- The zero-valued statistics record `compactionStats{err: err}` returned
by every error path of `compactBucket`. -/
def errStats : compactionStats := ⟨0, 0, 0, 0, true⟩

/-- The worker `compactBucket`: sorts the bucket's files by time (in place), reads and
decodes every segment, creates the new SSTable, streams the merged output
through the writer while feeding the filter, persists the filter, closes the
writer, and only then sets `processed`.  Every failure returns
`compactionStats{err: err}` with the bucket left unprocessed. -/
def compactBucket (opts : Options) (env : BEnv) (b : bucket) :
    bucket × compactionStats × List Eff :=
  let sorted := sortByTime env.recKey b.files
  match readAll env sorted with
  | (none, effs) => (⟨sorted, b.processed⟩, errStats, effs)
  | (some segs, effs) =>
    if !env.newSSTOk then
      (⟨sorted, b.processed⟩, errStats, effs ++ [Eff.createSegment])
    else
      let out := mergeSegs segs
      let effs2 := effs ++ Eff.createSegment :: Eff.newWriter opts.UseCompression ::
          out.map fun r => Eff.writeRec r.1 r.2
      if !env.filterOk then
        (⟨sorted, b.processed⟩, errStats, effs2 ++ [Eff.persistFilter])
      else if !env.closeOk then
        (⟨sorted, b.processed⟩, errStats, effs2 ++ [Eff.persistFilter, Eff.closeWriter])
      else
        (⟨sorted, true⟩,
         ⟨sorted.length, 1, totalLen segs, out.length, false⟩,
         effs2 ++ [Eff.persistFilter, Eff.closeWriter])

/-! ### The producer of `compactBuckets`

The goroutine of `compactBuckets` loops over the buckets; each iteration
first runs `compactBucket` and only then reaches the
`select { case <-done: return; case results <- cs }`.  The model exposes the
signal's timing as `cancel : Option Nat` — the `done` channel is closed just
before slot `c` (bucket `c`'s processing), so the signal is observable at
every select from slot `c` on — and the select's nondeterministic choice
when both branches are ready as `sel` (`true` = take the `done` branch). -/

inductive PEvent : Type where
  /-- The loop ran `compactBucket` for the bucket at this planned position. -/
  | processB (i : Nat)
  /-- the statistics record of this bucket was sent on `results`. -/
  | emitB (i : Nat)
  /-- the goroutine returned through the `done` branch of the select. -/
  | stopB
  deriving DecidableEq, Repr

/-- Whether the cancellation signal is observable at slot `i`. -/
def cancelledAt (cancel : Option Nat) (i : Nat) : Bool :=
  match cancel with
  | none => false
  | some c => decide (c ≤ i)

structure ProdOut where
  events : List PEvent
  stats : List compactionStats
  buckets : List bucket
  effs : List Eff
  deriving DecidableEq, Repr

/-- The producer loop of `compactBuckets` from slot `i` on. -/
def compactBuckets (opts : Options) (env : Nat → BEnv) (cancel : Option Nat)
    (sel : Nat → Bool) : List bucket → Nat → ProdOut
  | [], _ => ⟨[], [], [], []⟩
  | b :: bs, i =>
    let r := compactBucket opts (env i) b
    if cancelledAt cancel i && sel i then
      ⟨[PEvent.processB i, PEvent.stopB], [], r.1 :: bs, r.2.2⟩
    else
      let rest := compactBuckets opts env cancel sel bs (i + 1)
      ⟨PEvent.processB i :: PEvent.emitB i :: rest.events,
       r.2.1 :: rest.stats, r.1 :: rest.buckets, r.2.2 ++ rest.effs⟩

/-- The pass `deleteProcessedFiles`: the names deleted, in iteration order — exactly
the files of buckets whose `processed` flag is set. -/
def deleteProcessedFiles (bs : List bucket) : List String :=
  bs.flatMap fun b => if b.processed then b.files else []

structure RunResult where
  stats : List compactionStats
  buckets : List bucket
  dels : List String
  effs : List Eff
  deriving DecidableEq, Repr

/-- The entry point `Compact`: gate, bucket planning, sequential producer drained by the
caller (the `done` channel is closed only after the result stream ends, so
no cancellation fires), then deletion of the processed buckets' inputs. -/
def Compact (env : Nat → BEnv) (c : Compactor) : RunResult :=
  if shouldCompact c then
    let files := c.files.getD []
    match makeBuckets files.length files with
    | none => ⟨[], [], [], []⟩
    | some bs =>
      let p := compactBuckets c.fs.options env none (fun _ => false) bs 0
      let dels := deleteProcessedFiles p.buckets
      ⟨p.stats, p.buckets, dels, p.effs ++ dels.map Eff.deleteFile⟩
  else ⟨[], [], [], []⟩

/-- The constructor `NewCompactor`: the Options bundle is a hard-coded literal; the caller
supplies only the path.  `GetDataFiles` is a collaborator (not under
`src/`); its enumeration result per path is the oracle `gdf`. -/
def NewCompactor (gdf : String → Option (List String)) (path : String) :
    Compactor :=
  ⟨NewFS path ⟨false, true, false⟩, gdf path, []⟩

/-- Ten concrete file names used by several witnesses. -/
def filesW : List String :=
  ["f0", "f1", "f2", "f3", "f4", "f5", "f6", "f7", "f8", "f9"]

/-- The bucket list the planner produces for `filesW`. -/
def mbW : List bucket :=
  [⟨["f0", "f1", "f2", "f3", "f4"], false⟩, ⟨["f5", "f6", "f7", "f8", "f9"], false⟩]

/-- All collaborator calls of `compactBucket` succeed for this bucket. -/
def bucketOk (env : BEnv) (b : bucket) : Prop :=
  (∀ f ∈ b.files, env.readOk f = true) ∧ env.newSSTOk = true ∧
    env.filterOk = true ∧ env.closeOk = true

instance (env : BEnv) (b : bucket) : Decidable (bucketOk env b) := by
  unfold bucketOk; infer_instance

/-- Event trace of an uncancelled sequential run over `n` buckets starting
at slot `i`: process, then emit, bucket by bucket. -/
def plannedEvents : Nat → Nat → List PEvent
  | _, 0 => []
  | i, n + 1 => PEvent.processB i :: PEvent.emitB i :: plannedEvents (i + 1) n

/-! ### Concrete inputs for witnesses -/

/-- The Options literal of `NewCompactor`. -/
def optsW : Options := ⟨false, true, false⟩

/-- A collaborator oracle where every call succeeds. -/
def envOkB : BEnv := ⟨fun _ => true, fun _ => [], fun _ => 0, true, true, true⟩

/-- A collaborator oracle where every segment read fails. -/
def envBadRead : BEnv := ⟨fun _ => false, fun _ => [], fun _ => 0, true, true, true⟩

/-- A two-file bucket. -/
def bW : bucket := ⟨["a", "b"], false⟩

/-- A three-file compactor (gate passes: 3 > minBucketSize). -/
def cW : Compactor := ⟨NewFS "store" optsW, some ["a", "b", "c"], []⟩

/-- A compactor over a nil file slice. -/
def cNil : Compactor := ⟨NewFS "store" optsW, none, []⟩

/-! ### Basic lemmas about the merge frontier -/

theorem mem_allKeys {ss : List Segment} {k : Nat} :
    k ∈ allKeys ss ↔ ∃ s ∈ ss, k ∈ segKeys s := by
  simp [allKeys, List.mem_flatten]

theorem minKey_mem {l : List Nat} {m : Nat} (h : minKey l = some m) : m ∈ l := by
  revert m
  induction l with
  | nil => intro m h; simp [minKey] at h
  | cons k ks ih =>
    intro m h
    rw [minKey] at h
    cases hks : minKey ks with
    | none => rw [hks] at h; simp at h; simp [h]
    | some m' =>
      rw [hks] at h
      simp at h
      rcases min_choice k m' with hc | hc <;> rw [hc] at h
      · simp [h]
      · exact List.mem_cons_of_mem _ (h ▸ ih hks)

theorem minKey_le {l : List Nat} {m : Nat} (h : minKey l = some m) :
    ∀ x ∈ l, m ≤ x := by
  induction l generalizing m with
  | nil => simp
  | cons k ks ih =>
    rw [minKey] at h
    cases hks : minKey ks with
    | none =>
      rw [hks] at h; simp at h; subst h
      intro x hx
      rcases List.mem_cons.mp hx with rfl | hx
      · exact le_refl x
      · cases ks with
        | nil => simp at hx
        | cons a t => rw [minKey] at hks; cases h2 : minKey t <;> simp [h2] at hks
    | some m' =>
      rw [hks] at h; simp at h; subst h
      intro x hx
      rcases List.mem_cons.mp hx with rfl | hx
      · exact min_le_left _ _
      · exact le_trans (min_le_right _ _) (ih hks x hx)

theorem minKey_isSome {l : List Nat} (h : l ≠ []) : (minKey l).isSome := by
  cases l with
  | nil => exact absurd rfl h
  | cons k ks => rw [minKey]; cases minKey ks <;> simp

theorem mem_headRecs {ss : List Segment} {r : Rec} :
    r ∈ headRecs ss ↔ ∃ s ∈ ss, s.head? = some r := by
  simp [headRecs, List.mem_filterMap]

/-- A head key is a key of the segment list. -/
theorem headKey_mem_allKeys {ss : List Segment} {m : Nat}
    (h : m ∈ (headRecs ss).map Prod.fst) : m ∈ allKeys ss := by
  rcases List.mem_map.mp h with ⟨r, hr, rfl⟩
  rcases mem_headRecs.mp hr with ⟨s, hs, hh⟩
  refine mem_allKeys.mpr ⟨s, hs, ?_⟩
  cases s with
  | nil => simp at hh
  | cons a t => simp at hh; simp [segKeys, hh]

/-- When some key is present at all, the frontier is nonempty. -/
theorem minHeadKey_isSome {ss : List Segment} {K : Nat}
    (hK : K ∈ allKeys ss) : ∃ m, minHeadKey ss = some m := by
  rcases mem_allKeys.mp hK with ⟨s, hs, hks⟩
  have hne : s ≠ [] := by
    intro h; subst h; simp [segKeys] at hks
  have hhead : ∃ r, s.head? = some r := by
    cases s with
    | nil => exact absurd rfl hne
    | cons a t => exact ⟨a, rfl⟩
  rcases hhead with ⟨r, hr⟩
  have : r.1 ∈ (headRecs ss).map Prod.fst :=
    List.mem_map.mpr ⟨r, mem_headRecs.mpr ⟨s, hs, hr⟩, rfl⟩
  have hne2 : (headRecs ss).map Prod.fst ≠ [] := by
    intro h; rw [h] at this; simp at this
  have := minKey_isSome hne2
  rcases Option.isSome_iff_exists.mp this with ⟨m, hm⟩
  exact ⟨m, hm⟩

theorem segSorted_cons {r : Rec} {t : Segment} :
    segSorted (r :: t) ↔ (∀ k ∈ segKeys t, r.1 < k) ∧ segSorted t := by
  simp [segSorted, segKeys, List.sorted_cons]

/-- The minimum head key bounds every key of a sorted segment list. -/
theorem minHeadKey_le_all {ss : List Segment} {m : Nat}
    (hs : ∀ s ∈ ss, segSorted s) (hm : minHeadKey ss = some m) :
    ∀ k ∈ allKeys ss, m ≤ k := by
  intro k hk
  rcases mem_allKeys.mp hk with ⟨s, hsm, hks⟩
  cases s with
  | nil => simp [segKeys] at hks
  | cons r t =>
    have hhead : m ≤ r.1 := by
      refine minKey_le hm _ ?_
      exact List.mem_map.mpr ⟨r, mem_headRecs.mpr ⟨_, hsm, rfl⟩, rfl⟩
    rcases List.mem_cons.mp hks with rfl | hkt
    · exact hhead
    · have := (segSorted_cons.mp (hs _ hsm)).1 k hkt
      omega

/-- A sorted segment whose head key is not the global minimum does not
contain the global minimum at all. -/
theorem not_mem_of_head_ne {ss : List Segment} {m : Nat} {r : Rec} {t : Segment}
    (hs : ∀ s ∈ ss, segSorted s) (hm : minHeadKey ss = some m)
    (hmem : (r :: t) ∈ ss) (hne : r.1 ≠ m) : m ∉ segKeys (r :: t) := by
  intro hin
  have h1 : m ≤ r.1 := by
    refine minKey_le hm _ ?_
    exact List.mem_map.mpr ⟨r, mem_headRecs.mpr ⟨_, hmem, rfl⟩, rfl⟩
  rcases List.mem_cons.mp hin with heq | hmt
  · exact hne heq.symm
  · have := (segSorted_cons.mp (hs _ hmem)).1 m hmt
    omega

/-! ### Lemmas about `advance` -/

theorem segKeys_advanceOne_sub {m k : Nat} {s : Segment}
    (h : k ∈ segKeys (advanceOne m s)) : k ∈ segKeys s := by
  cases s with
  | nil => simpa [advanceOne] using h
  | cons r t =>
    rw [advanceOne] at h
    by_cases hr : r.1 = m
    · simp [hr] at h; simp [segKeys]; right; simpa [segKeys] using h
    · simpa [hr] using h

theorem allKeys_advance_sub {ss : List Segment} {m k : Nat}
    (h : k ∈ allKeys (advance ss m)) : k ∈ allKeys ss := by
  rcases mem_allKeys.mp h with ⟨s', hs', hk⟩
  rcases List.mem_map.mp hs' with ⟨s, hsm, rfl⟩
  exact mem_allKeys.mpr ⟨s, hsm, segKeys_advanceOne_sub hk⟩

theorem advance_sorted {ss : List Segment} {m : Nat}
    (hs : ∀ s ∈ ss, segSorted s) : ∀ s' ∈ advance ss m, segSorted s' := by
  intro s' hs'
  rcases List.mem_map.mp hs' with ⟨s, hsm, rfl⟩
  have hss := hs s hsm
  cases s with
  | nil => simpa [advanceOne] using hss
  | cons r t =>
    rw [advanceOne]
    by_cases hr : r.1 = m
    · simp [hr]; exact (segSorted_cons.mp hss).2
    · simpa [hr] using hss

/-- After advancing past the minimum head key `m`, every remaining key is
strictly greater than `m`. -/
theorem allKeys_advance_gt {ss : List Segment} {m : Nat}
    (hs : ∀ s ∈ ss, segSorted s) (hm : minHeadKey ss = some m) :
    ∀ k ∈ allKeys (advance ss m), m < k := by
  intro k hk
  rcases mem_allKeys.mp hk with ⟨s', hs', hks⟩
  rcases List.mem_map.mp hs' with ⟨s, hsm, rfl⟩
  cases s with
  | nil => simp [advanceOne, segKeys] at hks
  | cons r t =>
    rw [advanceOne] at hks
    by_cases hr : r.1 = m
    · rw [if_pos hr] at hks
      have := (segSorted_cons.mp (hs _ hsm)).1 k hks
      omega
    · rw [if_neg hr] at hks
      have hle : m ≤ k := minHeadKey_le_all hs hm k (mem_allKeys.mpr ⟨_, hsm, hks⟩)
      rcases Nat.lt_or_ge m k with h | h
      · exact h
      · have hkm : k = m := by omega
        subst hkm
        exact absurd hks (not_mem_of_head_ne hs hm hsm hr)

/-- Advancing past `m` preserves membership of every other key. -/
theorem mem_allKeys_advance {ss : List Segment} {m k : Nat} (hk : k ≠ m) :
    k ∈ allKeys (advance ss m) ↔ k ∈ allKeys ss := by
  constructor
  · exact allKeys_advance_sub
  · intro h
    rcases mem_allKeys.mp h with ⟨s, hsm, hks⟩
    refine mem_allKeys.mpr ⟨advanceOne m s, List.mem_map.mpr ⟨s, hsm, rfl⟩, ?_⟩
    cases s with
    | nil => simp [segKeys] at hks
    | cons r t =>
      rw [advanceOne]
      by_cases hr : r.1 = m
      · rw [if_pos hr]
        rcases List.mem_cons.mp hks with heq | hmt
        · exact absurd (heq ▸ hr) hk
        · exact hmt
      · rw [if_neg hr]; exact hks

theorem totalLen_advance_le {ss : List Segment} {m : Nat} :
    totalLen (advance ss m) ≤ totalLen ss := by
  induction ss with
  | nil => simp [advance, totalLen]
  | cons s rest ih =>
    simp only [advance, totalLen, List.map_cons, List.sum_cons] at *
    have h1 : (advanceOne m s).length ≤ s.length := by
      cases s with
      | nil => simp [advanceOne]
      | cons r t => rw [advanceOne]; by_cases hr : r.1 = m <;> simp [hr]
    omega

theorem totalLen_advance_lt {ss : List Segment} {m : Nat}
    (hm : minHeadKey ss = some m) : totalLen (advance ss m) < totalLen ss := by
  have hmem : m ∈ (headRecs ss).map Prod.fst := minKey_mem hm
  rcases List.mem_map.mp hmem with ⟨r, hr, rfl⟩
  rcases mem_headRecs.mp hr with ⟨s, hsm, hh⟩
  clear hm hmem hr
  induction ss with
  | nil => simp at hsm
  | cons s0 rest ih =>
    simp only [advance, totalLen, List.map_cons, List.sum_cons] at *
    rcases List.mem_cons.mp hsm with rfl | hsm'
    · have h1 : (advanceOne r.1 s).length < s.length := by
        cases s with
        | nil => simp at hh
        | cons a t =>
          simp at hh
          rw [advanceOne, hh]; simp
      have h2 : totalLen (advance rest r.1) ≤ totalLen rest := totalLen_advance_le
      simp only [advance, totalLen] at h2
      omega
    · have h1 : (advanceOne r.1 s0).length ≤ s0.length := by
        cases s0 with
        | nil => simp [advanceOne]
        | cons a t => rw [advanceOne]; by_cases ha : a.1 = r.1 <;> simp [ha]
      have h2 := ih hsm'
      omega

/-! ### Lookup lemmas -/

theorem findSome?_congr {α β : Type} {f g : α → Option β} {l : List α}
    (h : ∀ x ∈ l, f x = g x) : l.findSome? f = l.findSome? g := by
  induction l with
  | nil => rfl
  | cons a t ih =>
    rw [List.findSome?_cons, List.findSome?_cons, h a (List.mem_cons_self a t)]
    cases g a with
    | some b => rfl
    | none => exact ih fun x hx => h x (List.mem_cons_of_mem _ hx)

theorem findSome?_isSome_of {α β : Type} {f : α → Option β} {l : List α} {x : α}
    (hx : x ∈ l) (hf : (f x).isSome) : (l.findSome? f).isSome := by
  induction l with
  | nil => simp at hx
  | cons a t ih =>
    rw [List.findSome?_cons]
    cases ha : f a with
    | some b => simp
    | none =>
      rcases List.mem_cons.mp hx with rfl | hxt
      · rw [ha] at hf; simp at hf
      · exact ih hxt

theorem lookupSeg_head {r : Rec} {t : Segment} {m : Nat} (h : r.1 = m) :
    lookupSeg (r :: t) m = some r.2 := by
  simp [lookupSeg, List.find?_cons_of_pos, h]

theorem lookupSeg_cons_ne {r : Rec} {t : Segment} {k : Nat} (h : r.1 ≠ k) :
    lookupSeg (r :: t) k = lookupSeg t k := by
  simp [lookupSeg, List.find?_cons_of_neg, h]

theorem lookupSeg_not_mem {s : Segment} {m : Nat} (h : m ∉ segKeys s) :
    lookupSeg s m = none := by
  have : s.find? (fun r => decide (r.1 = m)) = none := by
    rw [List.find?_eq_none]
    intro r hr
    simp only [decide_eq_true_eq]
    intro he
    exact h (he ▸ List.mem_map.mpr ⟨r, hr, rfl⟩)
  simp [lookupSeg, this]

theorem lookupSeg_isSome {s : Segment} {k : Nat} (h : k ∈ segKeys s) :
    (lookupSeg s k).isSome := by
  rcases List.mem_map.mp h with ⟨r, hr, rfl⟩
  have : (s.find? (fun r' => decide (r'.1 = r.1))).isSome :=
    List.find?_isSome.mpr ⟨r, hr, by simp⟩
  simpa [lookupSeg] using this

theorem lookupSeg_advanceOne {s : Segment} {m k : Nat} (hk : k ≠ m) :
    lookupSeg (advanceOne m s) k = lookupSeg s k := by
  cases s with
  | nil => rfl
  | cons r t =>
    rw [advanceOne]
    by_cases hr : r.1 = m
    · rw [if_pos hr, lookupSeg_cons_ne (by rw [hr]; exact fun he => hk he.symm)]
    · rw [if_neg hr]

theorem lwwVal_advance {ss : List Segment} {m k : Nat} (hk : k ≠ m) :
    lwwVal (advance ss m) k = lwwVal ss k := by
  unfold lwwVal advance
  rw [← List.map_reverse]
  rw [List.findSome?_map]
  exact findSome?_congr fun s _ => lookupSeg_advanceOne hk

/-- At the minimum head key, the merge's pick (most recent source exposing
the key) agrees with the specification's most-recent-segment lookup. -/
theorem pickVal_eq_lwwVal {ss : List Segment} {m : Nat}
    (hs : ∀ s ∈ ss, segSorted s) (hm : minHeadKey ss = some m) :
    pickVal ss m = lwwVal ss m := by
  unfold pickVal lwwVal
  apply findSome?_congr
  intro s hs'
  have hsm : s ∈ ss := List.mem_reverse.mp hs'
  cases s with
  | nil => rfl
  | cons r t =>
    by_cases hr : r.1 = m
    · rw [headValAt, if_pos hr, lookupSeg_head hr]
    · rw [headValAt, if_neg hr, lookupSeg_not_mem (not_mem_of_head_ne hs hm hsm hr)]

theorem lwwVal_isSome {ss : List Segment} {K : Nat} (hK : K ∈ allKeys ss) :
    (lwwVal ss K).isSome := by
  rcases mem_allKeys.mp hK with ⟨s, hsm, hk⟩
  exact findSome?_isSome_of (List.mem_reverse.mpr hsm) (lookupSeg_isSome hk)

theorem allKeys_cons {s : Segment} {rest : List Segment} :
    allKeys (s :: rest) = segKeys s ++ allKeys rest := by
  simp [allKeys]

theorem allKeys_eq_nil_of_totalLen_zero {ss : List Segment}
    (h : totalLen ss = 0) : allKeys ss = [] := by
  induction ss with
  | nil => rfl
  | cons s rest ih =>
    simp only [totalLen, List.map_cons, List.sum_cons] at h
    have hs : s = [] := List.length_eq_zero.mp (by omega)
    have hr : totalLen rest = 0 := by simp only [totalLen]; omega
    rw [allKeys_cons, ih hr, hs]
    simp [segKeys]

/-! ### Main merge properties -/

theorem outKeys_mergeAux_sub {fuel : Nat} {ss : List Segment} {k : Nat}
    (h : k ∈ outKeys (mergeAux fuel ss)) : k ∈ allKeys ss := by
  induction fuel generalizing ss with
  | zero => simp [mergeAux, outKeys] at h
  | succ fuel ih =>
    rw [mergeAux] at h
    cases hm : minHeadKey ss with
    | none => rw [hm] at h; simp [outKeys] at h
    | some m =>
      rw [hm] at h
      simp only [outKeys, List.map_cons] at h
      rcases List.mem_cons.mp h with rfl | hrest
      · exact headKey_mem_allKeys (minKey_mem hm)
      · exact allKeys_advance_sub (ih hrest)

/-- The emitted key sequence of the merge is strictly increasing. -/
theorem mergeAux_sorted {fuel : Nat} {ss : List Segment}
    (hs : ∀ s ∈ ss, segSorted s) :
    List.Sorted (· < ·) (outKeys (mergeAux fuel ss)) := by
  induction fuel generalizing ss with
  | zero => simp [mergeAux, outKeys]
  | succ fuel ih =>
    rw [mergeAux]
    cases hm : minHeadKey ss with
    | none => simp [outKeys]
    | some m =>
      simp only [outKeys, List.map_cons]
      rw [List.sorted_cons]
      refine ⟨?_, ih (advance_sorted hs)⟩
      intro b hb
      exact allKeys_advance_gt hs hm b (outKeys_mergeAux_sub hb)

/-- Last-writer-wins: given enough fuel, the merge output holds exactly one
record for any present key `K`, whose value is the one of the most recent
segment containing `K`. -/
theorem mergeAux_filter {fuel : Nat} {ss : List Segment} {K : Nat}
    (hs : ∀ s ∈ ss, segSorted s) (hfuel : totalLen ss ≤ fuel)
    (hK : K ∈ allKeys ss) :
    ∃ v, lwwVal ss K = some v ∧
      (mergeAux fuel ss).filter (fun r => decide (r.1 = K)) = [(K, v)] := by
  induction fuel generalizing ss with
  | zero =>
    rw [allKeys_eq_nil_of_totalLen_zero (Nat.le_zero.mp hfuel)] at hK
    simp at hK
  | succ fuel ih =>
    rcases minHeadKey_isSome hK with ⟨m, hm⟩
    rw [mergeAux, hm]
    by_cases hKm : K = m
    · subst hKm
      rcases Option.isSome_iff_exists.mp (lwwVal_isSome hK) with ⟨v, hv⟩
      refine ⟨v, hv, ?_⟩
      rw [List.filter_cons]
      rw [if_pos (by simp)]
      have htail :
          (mergeAux fuel (advance ss K)).filter (fun r => decide (r.1 = K)) = [] := by
        rw [List.filter_eq_nil_iff]
        intro r hr
        have hk' : r.1 ∈ outKeys (mergeAux fuel (advance ss K)) :=
          List.mem_map.mpr ⟨r, hr, rfl⟩
        have := allKeys_advance_gt hs hm r.1 (outKeys_mergeAux_sub hk')
        simp only [decide_eq_true_eq]
        omega
      rw [htail, pickVal_eq_lwwVal hs hm, hv]
      rfl
    · have hKadv : K ∈ allKeys (advance ss m) := (mem_allKeys_advance hKm).mpr hK
      have hfadv : totalLen (advance ss m) ≤ fuel := by
        have := totalLen_advance_lt hm; omega
      rcases ih (advance_sorted hs) hfadv hKadv with ⟨v, hv, hfil⟩
      refine ⟨v, ?_, ?_⟩
      · rw [← lwwVal_advance hKm]; exact hv
      · rw [List.filter_cons, if_neg (by simp; omega)]
        exact hfil

/-! ### Bucketing planner lemmas -/

/-- On an input shorter than `minBucketSize` the recursion never reaches a
base case: no amount of fuel produces a result (the Go code overflows the
stack there). -/
theorem makeBuckets_short {files : List String} (h : files.length < minBucketSize) :
    ∀ fuel, makeBuckets fuel files = none := by
  intro fuel
  induction fuel generalizing files with
  | zero => rfl
  | succ fuel ih =>
    rw [makeBuckets]
    rw [if_neg (by omega)]
    have hlen : files.length = 0 ∨ files.length = 1 := by
      simp [minBucketSize] at h; omega
    have hhalf : files.length / 2 = 0 := by rcases hlen with h0 | h0 <;> simp [h0]
    have htake : (files.take (files.length / 2)).length < minBucketSize := by
      rw [hhalf]; simp [minBucketSize]
    rw [ih htake]

/-- Fuel equal to the list length suffices whenever the length is at least
`minBucketSize`: each recursive call strictly shrinks the list. -/
theorem makeBuckets_isSome :
    ∀ (fuel : Nat) (files : List String), files.length ≤ fuel →
      minBucketSize ≤ files.length → (makeBuckets fuel files).isSome := by
  intro fuel
  induction fuel with
  | zero => intro files h1 h2; simp [minBucketSize] at h2; omega
  | succ fuel ih =>
    intro files h1 h2
    rw [makeBuckets]
    by_cases hc : minBucketSize ≤ files.length ∧ files.length ≤ maxBucketSize
    · rw [if_pos hc]; rfl
    · rw [if_neg hc]
      have hbig : maxBucketSize < files.length := by
        rcases Nat.lt_or_ge maxBucketSize files.length with h | h
        · exact h
        · exact absurd ⟨h2, h⟩ hc
      have h9 : 9 ≤ files.length := by simpa [maxBucketSize] using hbig
      have htake : (files.take (files.length / 2)).length = files.length / 2 := by
        simp; omega
      have hdrop : (files.drop (files.length / 2)).length
          = files.length - files.length / 2 := by simp
      have hl := ih (files.take (files.length / 2))
        (by rw [htake]; omega) (by rw [htake]; simp [minBucketSize]; omega)
      have hr := ih (files.drop (files.length / 2))
        (by rw [hdrop]; omega) (by rw [hdrop]; simp [minBucketSize]; omega)
      rcases Option.isSome_iff_exists.mp hl with ⟨l, hl'⟩
      rcases Option.isSome_iff_exists.mp hr with ⟨r, hr'⟩
      rw [hl', hr']
      rfl

/-- Coverage: the planned buckets concatenate, in order, back to the input. -/
theorem makeBuckets_flatten :
    ∀ {fuel : Nat} {files : List String} {bs : List bucket},
      makeBuckets fuel files = some bs → (bs.map bucket.files).flatten = files := by
  intro fuel
  induction fuel with
  | zero => intro files bs h; exact absurd h (by simp [makeBuckets])
  | succ fuel ih =>
    intro files bs h
    rw [makeBuckets] at h
    by_cases hc : minBucketSize ≤ files.length ∧ files.length ≤ maxBucketSize
    · rw [if_pos hc] at h
      cases h
      simp
    · rw [if_neg hc] at h
      cases hl : makeBuckets fuel (files.take (files.length / 2)) with
      | none => rw [hl] at h; simp at h
      | some l =>
        cases hr : makeBuckets fuel (files.drop (files.length / 2)) with
        | none => rw [hl, hr] at h; simp at h
        | some r =>
          rw [hl, hr] at h
          cases h
          rw [List.map_append, List.flatten_append, ih hl, ih hr,
            List.take_append_drop]

/-- Every planned bucket is within the size bounds and starts unprocessed. -/
theorem makeBuckets_each :
    ∀ {fuel : Nat} {files : List String} {bs : List bucket},
      makeBuckets fuel files = some bs →
      ∀ b ∈ bs, (minBucketSize ≤ b.files.length ∧ b.files.length ≤ maxBucketSize)
        ∧ b.processed = false := by
  intro fuel
  induction fuel with
  | zero => intro files bs h; exact absurd h (by simp [makeBuckets])
  | succ fuel ih =>
    intro files bs h
    rw [makeBuckets] at h
    by_cases hc : minBucketSize ≤ files.length ∧ files.length ≤ maxBucketSize
    · rw [if_pos hc] at h
      cases h
      intro b hb
      simp at hb
      subst hb
      exact ⟨hc, rfl⟩
    · rw [if_neg hc] at h
      cases hl : makeBuckets fuel (files.take (files.length / 2)) with
      | none => rw [hl] at h; simp at h
      | some l =>
        cases hr : makeBuckets fuel (files.drop (files.length / 2)) with
        | none => rw [hl, hr] at h; simp at h
        | some r =>
          rw [hl, hr] at h
          cases h
          intro b hb
          rcases List.mem_append.mp hb with hbl | hbr
          · exact ih hl b hbl
          · exact ih hr b hbr

theorem count_flatten_eq_sum {α : Type} [DecidableEq α] (L : List (List α)) (a : α) :
    (L.flatten).count a = (L.map fun l => l.count a).sum := by
  induction L with
  | nil => rfl
  | cons l rest ih => simp [List.count_append, ih]

/-- Claim C3: For any input file list, the buckets produced by `makeBuckets`
cover the input exactly: their file lists concatenate back to the input in
order, so each input occurrence lands in exactly one bucket, nothing is
duplicated, and relative order is preserved within (and across) buckets. -/
theorem claim_makeBuckets_coverage (fuel : Nat) (files : List String)
    (bs : List bucket) (h : makeBuckets fuel files = some bs) :
    (bs.map bucket.files).flatten = files ∧
    ∀ f, (bs.map fun b => b.files.count f).sum = files.count f := by
  refine ⟨makeBuckets_flatten h, fun f => ?_⟩
  have hm : (bs.map fun b => b.files.count f)
      = (bs.map bucket.files).map fun l => l.count f := by
    rw [List.map_map]; rfl
  rw [hm, ← count_flatten_eq_sum, makeBuckets_flatten h]

/-- Witness for claim C3: a concrete ten-file input split by the planner. -/
theorem claim_makeBuckets_coverage_witness :
    ((mbW.map bucket.files).flatten = filesW ∧
      ∀ f, (mbW.map fun b => b.files.count f).sum = filesW.count f) :=
  claim_makeBuckets_coverage 10 filesW mbW (by decide)

/-- Claim C4: Every bucket produced by `makeBuckets` has between
`minBucketSize = 2` and `maxBucketSize = 8` files; when the input itself is
shorter than `minBucketSize`, no bucket at all is produced for it (no fuel
yields a result: the recursion never returns). -/
theorem claim_makeBuckets_bounds (files : List String) :
    (∀ fuel bs, makeBuckets fuel files = some bs →
      ∀ b ∈ bs, minBucketSize ≤ b.files.length ∧ b.files.length ≤ maxBucketSize) ∧
    (files.length < minBucketSize → ∀ fuel, makeBuckets fuel files = none) :=
  ⟨fun _ _ h b hb => (makeBuckets_each h b hb).1,
   fun hshort fuel => makeBuckets_short hshort fuel⟩

/-- Witness for claim C4: bounds hold on a concrete ten-file split; the empty
input yields no bucket. -/
theorem claim_makeBuckets_bounds_witness :
    (∀ b ∈ mbW, minBucketSize ≤ b.files.length ∧ b.files.length ≤ maxBucketSize) ∧
    makeBuckets 7 ([] : List String) = none :=
  ⟨(claim_makeBuckets_bounds filesW).1 10 mbW (by decide),
   (claim_makeBuckets_bounds []).2 (by decide) 7⟩

/-- Counterexample for claim C5: the claim asserts that the recursive splitting
terminates for every input list and in particular still terminates (with no
bucket) on lists shorter than `minBucketSize`.  It does not: on the empty
list each recursive step calls itself again on the empty list, so no fuel
bound ever suffices — the Go recursion never returns. -/
theorem claim_makeBuckets_divergence_cex :
    ¬ ∃ fuel bs, makeBuckets fuel ([] : List String) = some bs := by
  rintro ⟨fuel, bs, h⟩
  rw [makeBuckets_short (by decide) fuel] at h
  cases h

/-- Claim C5, amended: the recursion terminates for every input of length at
least `minBucketSize` (the list length strictly shrinks at each recursive
step, and `length` many nested calls suffice); but for an input with fewer
than `minBucketSize` elements it does not terminate at all — no bucket is
ever produced because the call never returns. -/
theorem claim_makeBuckets_termination (files : List String) :
    (minBucketSize ≤ files.length → (makeBuckets files.length files).isSome) ∧
    (files.length < minBucketSize → ∀ fuel, makeBuckets fuel files = none) :=
  ⟨fun h => makeBuckets_isSome files.length files (le_refl _) h,
   fun hshort fuel => makeBuckets_short hshort fuel⟩

/-- Witness for claim C5: termination on a concrete three-file input, divergence
on a concrete single-file input. -/
theorem claim_makeBuckets_termination_witness :
    (makeBuckets 3 ["a", "b", "c"]).isSome ∧ makeBuckets 9 ["a"] = none :=
  ⟨(claim_makeBuckets_termination ["a", "b", "c"]).1 (by decide),
   (claim_makeBuckets_termination ["a"]).2 (by decide) 9⟩

/-! ### `compactBucket` lemmas -/

theorem mem_sortByTime {recKey : String → Nat} {fs : List String} {f : String} :
    f ∈ sortByTime recKey fs ↔ f ∈ fs :=
  List.mem_insertionSort _

theorem sortByTime_perm (recKey : String → Nat) (fs : List String) :
    (sortByTime recKey fs).Perm fs :=
  List.perm_insertionSort _ _

theorem readAll_ok (env : BEnv) :
    ∀ {fs : List String}, (∀ f ∈ fs, env.readOk f = true) →
      readAll env fs = (some (fs.map env.segOf), fs.map Eff.readFile) := by
  intro fs
  induction fs with
  | nil => intro _; rfl
  | cons f rest ih =>
    intro h
    rw [readAll, if_pos (h f (List.mem_cons_self f rest)),
      ih fun g hg => h g (List.mem_cons_of_mem _ hg)]
    rfl

theorem readAll_fail (env : BEnv) :
    ∀ {fs : List String}, ¬ (∀ f ∈ fs, env.readOk f = true) →
      (readAll env fs).1 = none := by
  intro fs
  induction fs with
  | nil => intro h; exact absurd (by simp) h
  | cons f rest ih =>
    intro h
    rw [readAll]
    by_cases hf : env.readOk f
    · rw [if_pos hf]
      have hrest : ¬ ∀ g ∈ rest, env.readOk g = true := by
        intro hall
        refine h fun g hg => ?_
        rcases List.mem_cons.mp hg with rfl | hg'
        · exact hf
        · exact hall g hg'
      cases hr : readAll env rest with
      | mk o effs =>
        cases o with
        | none => rfl
        | some segs =>
          have := ih hrest
          rw [hr] at this
          simp at this
    · rw [if_neg hf]

/-- Control-flow summary of `compactBucket`: the files get sorted in place;
the statistics record is error-free exactly when every collaborator call
succeeded; and the `processed` flag is turned on exactly on the error-free
path (otherwise it keeps its previous value). -/
theorem compactBucket_main (opts : Options) (env : BEnv) (b : bucket) :
    (compactBucket opts env b).1.files = sortByTime env.recKey b.files ∧
    ((compactBucket opts env b).2.1.err = false ↔ bucketOk env b) ∧
    (compactBucket opts env b).1.processed
      = (if (compactBucket opts env b).2.1.err then b.processed else true) := by
  by_cases hreads : ∀ f ∈ b.files, env.readOk f = true
  · have hreads' : ∀ f ∈ sortByTime env.recKey b.files, env.readOk f = true :=
      fun f hf => hreads f (mem_sortByTime.mp hf)
    simp only [compactBucket]
    rw [readAll_ok env hreads']
    by_cases h1 : env.newSSTOk
    · by_cases h2 : env.filterOk
      · by_cases h3 : env.closeOk
        · simp [h1, h2, h3, bucketOk, errStats]
          exact hreads
        · simp [h1, h2, h3, bucketOk, errStats]
      · simp [h1, h2, bucketOk, errStats]
    · simp [h1, bucketOk, errStats]
  · have hsort : ¬ ∀ f ∈ sortByTime env.recKey b.files, env.readOk f = true :=
      fun hall => hreads fun f hf => hall f (mem_sortByTime.mpr hf)
    have hfail := readAll_fail env hsort
    simp only [compactBucket]
    cases hr : readAll env (sortByTime env.recKey b.files) with
    | mk o effs =>
      rw [hr] at hfail
      simp only at hfail
      subst hfail
      simp [bucketOk, errStats, hreads]

/-! ### Producer lemmas -/

/-- With no cancellation the producer processes and emits every bucket, in
planned order, one at a time. -/
theorem compactBuckets_nocancel (opts : Options) (env : Nat → BEnv)
    (sel : Nat → Bool) :
    ∀ (bs : List bucket) (i : Nat),
      (compactBuckets opts env none sel bs i).events = plannedEvents i bs.length ∧
      (compactBuckets opts env none sel bs i).stats.length = bs.length ∧
      (compactBuckets opts env none sel bs i).buckets.length = bs.length ∧
      ∀ j, j < bs.length →
        (compactBuckets opts env none sel bs i).stats.getD j errStats
          = (compactBucket opts (env (i + j)) (bs.getD j ⟨[], false⟩)).2.1 ∧
        (compactBuckets opts env none sel bs i).buckets.getD j ⟨[], false⟩
          = (compactBucket opts (env (i + j)) (bs.getD j ⟨[], false⟩)).1 := by
  intro bs
  induction bs with
  | nil => intro i; simp [compactBuckets, plannedEvents]
  | cons b rest ih =>
    intro i
    rw [compactBuckets]
    simp only [cancelledAt, Bool.false_and, Bool.false_eq_true, if_false]
    refine ⟨?_, ?_, ?_, ?_⟩
    · simp only [plannedEvents, List.length_cons]
      rw [(ih (i + 1)).1]
    · simp only [List.length_cons]
      rw [(ih (i + 1)).2.1]
    · simp only [List.length_cons]
      rw [(ih (i + 1)).2.2.1]
    · intro j hj
      cases j with
      | zero => simp
      | succ j =>
        have hj' : j < rest.length := by simpa using hj
        have hidx : i + 1 + j = i + (j + 1) := by omega
        have := (ih (i + 1)).2.2.2 j hj'
        rw [hidx] at this
        simpa using this

theorem mem_deleteProcessedFiles {bs : List bucket} {f : String} :
    f ∈ deleteProcessedFiles bs ↔
      ∃ b ∈ bs, b.processed = true ∧ f ∈ b.files := by
  simp only [deleteProcessedFiles, List.mem_flatMap]
  constructor
  · rintro ⟨b, hb, hf⟩
    by_cases hp : b.processed
    · exact ⟨b, hb, hp, by simpa [hp] using hf⟩
    · simp [hp] at hf
  · rintro ⟨b, hb, hp, hf⟩
    exact ⟨b, hb, by simpa [hp] using hf⟩

/-! ### Cancellation -/

/-- Once the signal is observable and the `done` branch is always taken when
ready, no bucket beyond the one of slot `max cancelSlot i` is ever
processed. -/
theorem compactBuckets_cancel_bound (opts : Options) (env : Nat → BEnv)
    (cancelSlot : Nat) (sel : Nat → Bool)
    (hsel : ∀ i, cancelSlot ≤ i → sel i = true) :
    ∀ (bs : List bucket) (i j : Nat),
      PEvent.processB j ∈ (compactBuckets opts env (some cancelSlot) sel bs i).events →
      j ≤ max cancelSlot i := by
  intro bs
  induction bs with
  | nil => intro i j h; simp [compactBuckets] at h
  | cons b rest ih =>
    intro i j h
    rw [compactBuckets] at h
    by_cases hc : cancelSlot ≤ i
    · have hct : cancelledAt (some cancelSlot) i = true := by
        simp [cancelledAt]; omega
      rw [hct, hsel i hc] at h
      simp at h
      omega
    · have hcf : cancelledAt (some cancelSlot) i = false := by
        simp [cancelledAt]; omega
      rw [hcf, Bool.false_and, if_neg (by simp)] at h
      simp only [List.mem_cons] at h
      rcases h with h | h | h
      · cases h; omega
      · cases h
      · have := ih (i + 1) j h
        omega

/-! ### Claim C1: merge correctness -/

/-- Claim C1: For segments (held oldest-to-newest, each sorted as the write
path guarantees) that collectively contain a key `K`, the merged output of
the merging iterator contains exactly one record for `K` — the filter by
key `K` is a single record — whose value is the one of the most recent
source segment containing `K`, and the emitted key sequence is strictly
increasing. -/
theorem claim_merge_lastWriterWins (ss : List Segment) (K : Nat)
    (hs : ∀ s ∈ ss, segSorted s) (hK : K ∈ allKeys ss) :
    List.Sorted (· < ·) (outKeys (mergeSegs ss)) ∧
    ∃ v, lwwVal ss K = some v ∧
      (mergeSegs ss).filter (fun r => decide (r.1 = K)) = [(K, v)] :=
  ⟨mergeAux_sorted hs, mergeAux_filter hs (le_refl _) hK⟩

/-- Witness for claim C1: the spec's own example — segment A holding key a
at value 1 (oldest), segment C holding key b at value 3, segment B holding
key a at value 2 (most recent) — keeps value 2 for key a and emits
increasing keys. -/
theorem claim_merge_lastWriterWins_witness :
    List.Sorted (· < ·) (outKeys (mergeSegs [[(0, 1)], [(1, 3)], [(0, 2)]])) ∧
    ∃ v, lwwVal [[(0, 1)], [(1, 3)], [(0, 2)]] 0 = some v ∧
      (mergeSegs [[(0, 1)], [(1, 3)], [(0, 2)]]).filter
        (fun r => decide (r.1 = 0)) = [(0, v)] :=
  claim_merge_lastWriterWins [[(0, 1)], [(1, 3)], [(0, 2)]] 0 (by decide) (by decide)

/-! ### Claim C2: atomicity of deletion -/

/-- Reduction of `Compact` when the gate passes and planning succeeds. -/
theorem Compact_eq (env : Nat → BEnv) (c : Compactor)
    (hg : shouldCompact c = true) {bs0 : List bucket}
    (hbs : makeBuckets (c.files.getD []).length (c.files.getD []) = some bs0) :
    Compact env c =
      ⟨(compactBuckets c.fs.options env none (fun _ => false) bs0 0).stats,
       (compactBuckets c.fs.options env none (fun _ => false) bs0 0).buckets,
       deleteProcessedFiles
         (compactBuckets c.fs.options env none (fun _ => false) bs0 0).buckets,
       (compactBuckets c.fs.options env none (fun _ => false) bs0 0).effs ++
         (deleteProcessedFiles
           (compactBuckets c.fs.options env none (fun _ => false) bs0 0).buckets).map
             Eff.deleteFile⟩ := by
  simp only [Compact, hg, if_true, hbs]

/-- Claim C2: In a compaction run, a bucket's input files are deleted iff its
statistics record reports no error: the `processed` flag ends up set exactly
when the merge-write-filter-close sequence fully succeeded, every file of a
bucket whose record is error-free is deleted, and (for distinct input
names) no file of a bucket whose record carries an error — equivalently
whose `processed` flag is still false — is deleted. -/
theorem claim_deletion_atomicity (env : Nat → BEnv) (c : Compactor)
    (hg : shouldCompact c = true) {bs0 : List bucket}
    (hbs : makeBuckets (c.files.getD []).length (c.files.getD []) = some bs0)
    (hnd : (c.files.getD []).Nodup) :
    (Compact env c).stats.length = bs0.length ∧
    (Compact env c).buckets.length = bs0.length ∧
    ∀ j, j < bs0.length →
      (((Compact env c).stats.getD j errStats).err = false
        ↔ ((Compact env c).buckets.getD j ⟨[], false⟩).processed = true) ∧
      (((Compact env c).buckets.getD j ⟨[], false⟩).processed = true →
        ∀ f ∈ (bs0.getD j ⟨[], false⟩).files, f ∈ (Compact env c).dels) ∧
      (((Compact env c).buckets.getD j ⟨[], false⟩).processed = false →
        ∀ f ∈ (bs0.getD j ⟨[], false⟩).files, f ∉ (Compact env c).dels) := by
  have hC := Compact_eq env c hg hbs
  obtain ⟨hev, hslen, hblen, hidx⟩ :=
    compactBuckets_nocancel c.fs.options env (fun _ => false) bs0 0
  refine ⟨by rw [hC]; exact hslen, by rw [hC]; exact hblen, ?_⟩
  intro j hj
  have hj0 : (0 : Nat) + j = j := by omega
  have e1 : (Compact env c).stats.getD j errStats
      = (compactBucket c.fs.options (env j) (bs0.getD j ⟨[], false⟩)).2.1 := by
    rw [hC]
    have := (hidx j hj).1
    rwa [hj0] at this
  have e2 : (Compact env c).buckets.getD j ⟨[], false⟩
      = (compactBucket c.fs.options (env j) (bs0.getD j ⟨[], false⟩)).1 := by
    rw [hC]
    have := (hidx j hj).2
    rwa [hj0] at this
  have hbjmem : bs0.getD j ⟨[], false⟩ ∈ bs0 := by
    rw [List.getD_eq_getElem bs0 ⟨[], false⟩ hj]
    exact List.getElem_mem hj
  have hproc0 : (bs0.getD j ⟨[], false⟩).processed = false :=
    (makeBuckets_each hbs _ hbjmem).2
  have hmain := compactBucket_main c.fs.options (env j) (bs0.getD j ⟨[], false⟩)
  have hdels : (Compact env c).dels = deleteProcessedFiles
      (compactBuckets c.fs.options env none (fun _ => false) bs0 0).buckets := by
    rw [hC]
  refine ⟨?_, ?_, ?_⟩
  · rw [e1, e2, hmain.2.2, hproc0]
    cases herr : (compactBucket c.fs.options (env j) (bs0.getD j ⟨[], false⟩)).2.1.err <;>
      simp
  · intro hptrue f hf
    rw [hdels]
    refine mem_deleteProcessedFiles.mpr
      ⟨(compactBucket c.fs.options (env j) (bs0.getD j ⟨[], false⟩)).1, ?_, ?_, ?_⟩
    · have hjb : j < (compactBuckets c.fs.options env none
          (fun _ => false) bs0 0).buckets.length := by omega
      rw [← e2, hC]
      simp only
      rw [List.getD_eq_getElem _ ⟨[], false⟩ hjb]
      exact List.getElem_mem hjb
    · rw [← e2]; exact hptrue
    · rw [hmain.1]
      exact mem_sortByTime.mpr hf
  · intro hpfalse f hf hdel
    rw [hdels] at hdel
    rcases mem_deleteProcessedFiles.mp hdel with ⟨b', hb'mem, hb'proc, hfb'⟩
    rcases List.mem_iff_getElem.mp hb'mem with ⟨k, hk, hbk⟩
    have hk' : k < bs0.length := by omega
    have hk0 : (0 : Nat) + k = k := by omega
    have e2k : b' = (compactBucket c.fs.options (env k) (bs0.getD k ⟨[], false⟩)).1 := by
      have := (hidx k hk').2
      rw [hk0] at this
      rw [← hbk, ← List.getD_eq_getElem _ ⟨[], false⟩ hk, this]
    have hkj : k ≠ j := by
      intro he
      subst he
      rw [e2k, ← e2] at hb'proc
      rw [hpfalse] at hb'proc
      cases hb'proc
    have hfk : f ∈ (bs0.getD k ⟨[], false⟩).files := by
      have hmk := compactBucket_main c.fs.options (env k) (bs0.getD k ⟨[], false⟩)
      rw [e2k, hmk.1] at hfb'
      exact mem_sortByTime.mp hfb'
    have hflat := makeBuckets_flatten hbs
    have hdisj : (bs0.map bucket.files).Pairwise List.Disjoint :=
      (List.nodup_flatten.mp (hflat ▸ hnd)).2
    have hmaplen : ∀ i, i < bs0.length → i < (bs0.map bucket.files).length := by
      intro i hi; simpa using hi
    have hgetmap : ∀ i (hi : i < bs0.length),
        (bs0.map bucket.files).getD i [] = (bs0.getD i ⟨[], false⟩).files := by
      intro i hi
      rw [List.getD_eq_getElem _ [] (hmaplen i hi), List.getD_eq_getElem _ ⟨[], false⟩ hi]
      simp
    have hpair := List.pairwise_iff_getElem.mp hdisj
    rcases Nat.lt_or_ge j k with hlt | hge
    · have hd := hpair j k (hmaplen j hj) (hmaplen k hk') hlt
      rw [← List.getD_eq_getElem _ [] (hmaplen j hj),
        ← List.getD_eq_getElem _ [] (hmaplen k hk'), hgetmap j hj, hgetmap k hk'] at hd
      exact hd hf hfk
    · have hlt' : k < j := by omega
      have hd := hpair k j (hmaplen k hk') (hmaplen j hj) hlt'
      rw [← List.getD_eq_getElem _ [] (hmaplen k hk'),
        ← List.getD_eq_getElem _ [] (hmaplen j hj), hgetmap k hk', hgetmap j hj] at hd
      exact hd.symm hf hfk

/-- Witness for claim C2: on a concrete all-successful three-file run the single
bucket's record is error-free iff its processed flag ended up set. -/
theorem claim_deletion_atomicity_witness :
    ((Compact (fun _ => envOkB) cW).stats.getD 0 errStats).err = false
      ↔ ((Compact (fun _ => envOkB) cW).buckets.getD 0 ⟨[], false⟩).processed = true :=
  ((claim_deletion_atomicity (fun _ => envOkB) cW (by decide)
    (show makeBuckets (cW.files.getD []).length (cW.files.getD [])
        = some [⟨["a", "b", "c"], false⟩] by decide)
    (by decide)).2.2 0 (by decide)).1

/-! ### Claim C6: failure scoping -/

/-- Claim C6: If any collaborator call of a bucket fails — a segment read, the
new-segment creation, the filter persist or the writer close — then that
bucket's statistics record carries an error, its `processed` flag stays
false, and the producer still processes and emits every sibling bucket:
the run's event trace is the full planned sequence and one statistics
record exists per bucket. -/
theorem claim_bucket_failure_scoped (opts : Options) (env : Nat → BEnv)
    (bs : List bucket) (i : Nat) (hi : i < bs.length)
    (hproc : (bs.getD i ⟨[], false⟩).processed = false)
    (hfail : ¬ bucketOk (env i) (bs.getD i ⟨[], false⟩)) :
    ((compactBuckets opts env none (fun _ => false) bs 0).stats.getD i errStats).err
        = true ∧
    ((compactBuckets opts env none (fun _ => false) bs 0).buckets.getD i
        ⟨[], false⟩).processed = false ∧
    (compactBuckets opts env none (fun _ => false) bs 0).stats.length = bs.length ∧
    (compactBuckets opts env none (fun _ => false) bs 0).events
      = plannedEvents 0 bs.length := by
  obtain ⟨hev, hslen, hblen, hidx⟩ := compactBuckets_nocancel opts env (fun _ => false) bs 0
  have hj0 : (0 : Nat) + i = i := by omega
  have h1 := (hidx i hi).1
  rw [hj0] at h1
  have h2 := (hidx i hi).2
  rw [hj0] at h2
  have hmain := compactBucket_main opts (env i) (bs.getD i ⟨[], false⟩)
  have herr : (compactBucket opts (env i) (bs.getD i ⟨[], false⟩)).2.1.err = true := by
    cases he : (compactBucket opts (env i) (bs.getD i ⟨[], false⟩)).2.1.err
    · exact absurd (hmain.2.1.mp he) hfail
    · rfl
  refine ⟨by rw [h1]; exact herr, ?_, hslen, hev⟩
  rw [h2, hmain.2.2, herr, hproc]
  simp

/-- Witness for claim C6: a run of two buckets where the first bucket's reads all
fail — its record is error-tagged, it stays unprocessed, and both buckets
were still processed and emitted. -/
theorem claim_bucket_failure_scoped_witness :
    ((compactBuckets optsW (fun _ => envBadRead) none (fun _ => false) [bW, bW] 0).stats.getD
        0 errStats).err = true ∧
    ((compactBuckets optsW (fun _ => envBadRead) none (fun _ => false) [bW, bW] 0).buckets.getD
        0 ⟨[], false⟩).processed = false ∧
    (compactBuckets optsW (fun _ => envBadRead) none (fun _ => false) [bW, bW] 0).stats.length
        = 2 ∧
    (compactBuckets optsW (fun _ => envBadRead) none (fun _ => false) [bW, bW] 0).events
        = plannedEvents 0 2 :=
  claim_bucket_failure_scoped optsW (fun _ => envBadRead) [bW, bW] 0 (by decide)
    (by decide) (by decide)

/-! ### Claim C7: the gate -/

/-- Claim C7: the gate `shouldCompact` returns true iff the candidate file count (0 for
a nil slice) exceeds `minBucketSize`, and whenever the count is at most
`minBucketSize`, `Compact` returns the empty run — no read, write, delete
or any other effect, no statistics, no buckets. -/
theorem claim_gate (env : Nat → BEnv) (c : Compactor) :
    (shouldCompact c = true ↔ minBucketSize < candidateCount c) ∧
    (candidateCount c ≤ minBucketSize →
      Compact env c = ⟨[], [], [], []⟩) := by
  constructor
  · unfold shouldCompact candidateCount
    cases c.files with
    | none => simp [minBucketSize]
    | some fs => simp
  · intro hle
    have hg : shouldCompact c = false := by
      unfold shouldCompact
      cases hcf : c.files with
      | none => rfl
      | some fs =>
        unfold candidateCount at hle
        rw [hcf] at hle
        simp at hle ⊢
        omega
    simp [Compact, hg]

/-- Witness for claim C7: with a nil candidate slice the gate is down and
`Compact` is a no-op. -/
theorem claim_gate_witness :
    (shouldCompact cNil = true ↔ minBucketSize < candidateCount cNil) ∧
    Compact (fun _ => envOkB) cNil = ⟨[], [], [], []⟩ :=
  ⟨(claim_gate (fun _ => envOkB) cNil).1,
   (claim_gate (fun _ => envOkB) cNil).2 (by decide)⟩

/-! ### Claim C8: cancellation -/

/-- Counterexample for claim C8: the claim says that once the `done` signal is
observable, no subsequent bucket's processing is begun.  Here the signal is
observable from slot 0 — before any bucket starts — and the select takes the
`done` branch at its first opportunity; yet the producer fully processes
bucket 0 (its `processed` flag ends up true: a new segment was written),
because the loop body runs `compactBucket` before it ever reaches the
select that checks `done`. -/
theorem claim_cancellation_cex :
    (compactBuckets optsW (fun _ => envOkB) (some 0) (fun _ => true) [bW, bW] 0).events
      = [PEvent.processB 0, PEvent.stopB] ∧
    ((compactBuckets optsW (fun _ => envOkB) (some 0) (fun _ => true)
        [bW, bW] 0).buckets.getD 0 ⟨[], false⟩).processed = true := by
  decide

/-- Claim C8, amended: cancellation is checked only at the select following
each bucket's `compactBucket` call.  Provided the `done` branch is taken at
every select at which the signal is observable, the producer stops at the
first such select: no bucket beyond slot `max cancelSlot i` is ever
processed (for a run started at slot `i` with the signal observable from
slot `cancelSlot`), and each bucket that did run completed atomically —
but the bucket whose slot the signal lands on is still fully processed. -/
theorem claim_cancellation_bound (opts : Options) (env : Nat → BEnv)
    (cancelSlot : Nat) (sel : Nat → Bool)
    (hsel : ∀ i, cancelSlot ≤ i → sel i = true) (bs : List bucket) (i j : Nat)
    (hj : PEvent.processB j ∈
      (compactBuckets opts env (some cancelSlot) sel bs i).events) :
    j ≤ max cancelSlot i :=
  compactBuckets_cancel_bound opts env cancelSlot sel hsel bs i j hj

/-- Witness for claim C8: concrete two-bucket run cancelled from slot 0. -/
theorem claim_cancellation_bound_witness : (0 : Nat) ≤ max 0 0 :=
  claim_cancellation_bound optsW (fun _ => envOkB) 0 (fun _ => true)
    (fun _ _ => rfl) [bW, bW] 0 0 (by decide)

/-! ### Claim C9: reporting order -/

/-- Claim C9: One statistics record is produced per planned bucket, in exactly
the planner's bucket order, and the producer handles buckets strictly one
at a time: the event trace is process-then-emit, slot by slot, in planned
order. -/
theorem claim_stats_order (env : Nat → BEnv) (c : Compactor)
    (hg : shouldCompact c = true) {bs0 : List bucket}
    (hbs : makeBuckets (c.files.getD []).length (c.files.getD []) = some bs0) :
    (Compact env c).stats.length = bs0.length ∧
    (∀ j, j < bs0.length →
      (Compact env c).stats.getD j errStats
        = (compactBucket c.fs.options (env j) (bs0.getD j ⟨[], false⟩)).2.1) ∧
    (compactBuckets c.fs.options env none (fun _ => false) bs0 0).events
      = plannedEvents 0 bs0.length := by
  have hC := Compact_eq env c hg hbs
  obtain ⟨hev, hslen, hblen, hidx⟩ :=
    compactBuckets_nocancel c.fs.options env (fun _ => false) bs0 0
  refine ⟨by rw [hC]; exact hslen, ?_, hev⟩
  intro j hj
  have h1 := (hidx j hj).1
  rw [show (0 : Nat) + j = j by omega] at h1
  rw [hC]
  exact h1

/-- Witness for claim C9: the three-file run yields exactly one record, which is
the record of its only planned bucket. -/
theorem claim_stats_order_witness :
    (Compact (fun _ => envOkB) cW).stats.length = 1 ∧
    (Compact (fun _ => envOkB) cW).stats.getD 0 errStats
      = (compactBucket cW.fs.options envOkB ((⟨["a", "b", "c"], false⟩ : bucket))).2.1 :=
  ⟨(claim_stats_order (fun _ => envOkB) cW (by decide)
      (show makeBuckets (cW.files.getD []).length (cW.files.getD [])
          = some [⟨["a", "b", "c"], false⟩] by decide)).1,
   (claim_stats_order (fun _ => envOkB) cW (by decide)
      (show makeBuckets (cW.files.getD []).length (cW.files.getD [])
          = some [⟨["a", "b", "c"], false⟩] by decide)).2.1 0 (by decide)⟩

/-! ### Claim C10: hard-coded options -/

theorem readAll_effs (env : BEnv) :
    ∀ (fs : List String) (e : Eff), e ∈ (readAll env fs).2 →
      ∃ f, e = Eff.readFile f := by
  intro fs
  induction fs with
  | nil => intro e he; simp [readAll] at he
  | cons f rest ih =>
    intro e he
    rw [readAll] at he
    by_cases hf : env.readOk f
    · rw [if_pos hf] at he
      cases hr : readAll env rest with
      | mk o effs =>
        rw [hr] at he
        cases o with
        | none =>
          simp at he
          rcases he with rfl | he'
          · exact ⟨f, rfl⟩
          · exact ih e (by rw [hr]; exact he')
        | some segs =>
          simp at he
          rcases he with rfl | he'
          · exact ⟨f, rfl⟩
          · exact ih e (by rw [hr]; exact he')
    · rw [if_neg hf] at he
      simp at he
      exact ⟨f, he⟩

/-- Every writer `compactBucket` creates carries the compactor's
`UseCompression` flag. -/
theorem compactBucket_newWriter_flag (opts : Options) (env : BEnv) (b : bucket)
    (flag : Bool) (h : Eff.newWriter flag ∈ (compactBucket opts env b).2.2) :
    flag = opts.UseCompression := by
  by_cases hreads : ∀ f ∈ sortByTime env.recKey b.files, env.readOk f = true
  · simp only [compactBucket] at h
    rw [readAll_ok env hreads] at h
    by_cases h1 : env.newSSTOk
    · by_cases h2 : env.filterOk
      · by_cases h3 : env.closeOk
        · simp [h1, h2, h3] at h
          exact h
        · simp [h1, h2, h3] at h
          exact h
      · simp [h1, h2] at h
        exact h
    · simp [h1] at h
  · simp only [compactBucket] at h
    cases hr : readAll env (sortByTime env.recKey b.files) with
    | mk o effs =>
      have hfail := readAll_fail env hreads
      rw [hr] at hfail h
      simp only at hfail
      subst hfail
      simp only at h
      rcases readAll_effs env _ (Eff.newWriter flag) (by rw [hr]; exact h) with ⟨f, hf⟩
      cases hf

/-- Claim C10: the constructor `NewCompactor` builds the file system with the fixed literal
ReadOnly=false, UseCompression=true, SyncWrite=false for every path —
callers of the public constructor choose only the path — and consequently
every writer created by `compactBucket` under such a compactor has
compression enabled (while the options bundle keeps synchronous writes
disabled). -/
theorem claim_newCompactor_options (gdf : String → Option (List String))
    (path : String) :
    (NewCompactor gdf path).fs.options = ⟨false, true, false⟩ ∧
    ∀ (env : BEnv) (b : bucket) (flag : Bool),
      Eff.newWriter flag ∈ (compactBucket (NewCompactor gdf path).fs.options env b).2.2 →
      flag = true := by
  refine ⟨rfl, ?_⟩
  intro env b flag h
  exact compactBucket_newWriter_flag _ env b flag h

/-- Witness for claim C10: the options literal at a concrete path, and a concrete
bucket run whose writer-creation effect indeed carries `true`. -/
theorem claim_newCompactor_options_witness :
    (NewCompactor (fun _ => none) "store").fs.options = ⟨false, true, false⟩ ∧
    true = true :=
  ⟨(claim_newCompactor_options (fun _ => none) "store").1,
   (claim_newCompactor_options (fun _ => none) "store").2 envOkB bW true (by decide)⟩

end GoKV
